import Mathlib

/-!
Shallow embedding of the PillyMarket prediction-market engine
(`src/lib/pills-market-engine.ts`, `src/lib/pills-market-types.ts`,
`src/hooks/use-pills-market.ts`).

JavaScript numbers are modelled as real numbers; timestamps as integers in
epoch milliseconds.  The JS object returned by `calculateProbabilities` is
modelled as an association list in insertion order (the object's value at a
key is the value of the last entry with that key).  Nondeterministic inputs
(`Date.now()`, the random order id) are passed as explicit parameters.
Functions that `throw` are modelled with `Except`.
-/

namespace Pillymarket

open Real

/-- `MarketPeriod` from pills-market-types.ts. -/
structure MarketPeriod where
  id : String
  epochNumber : ℤ
  startTime : ℤ
  endTime : ℤ
  isActive : Bool
  isResolved : Bool
  totalVolume : ℝ

/-- `KOLShare` from pills-market-types.ts. -/
structure KOLShare where
  periodId : String
  kolAddress : String
  pricePerShare : ℝ
  totalShares : ℝ
  totalInvested : ℝ
  probability : ℝ
  lastUpdated : ℤ

/-- `UserPosition` from pills-market-types.ts. -/
structure UserPosition where
  userAddress : String
  periodId : String
  kolAddress : String
  sharesOwned : ℝ
  averagePrice : ℝ
  totalInvested : ℝ
  currentValue : ℝ
  unrealizedPnL : ℝ
  lastTradeAt : ℤ

/-- Order side (`'buy' | 'sell'`). -/
inductive OrderType
  | buy
  | sell
deriving DecidableEq

/-- Order status (`'pending' | 'filled' | 'cancelled' | 'failed'`). -/
inductive OrderStatus
  | pending
  | filled
  | cancelled
  | failed
deriving DecidableEq

/-- `TradeOrder` from pills-market-types.ts (optional `signature`/`filledAt` omitted:
they are never set by the engine). -/
structure TradeOrder where
  id : String
  userAddress : String
  periodId : String
  kolAddress : String
  type : OrderType
  shares : ℝ
  pricePerShare : ℝ
  totalValue : ℝ
  status : OrderStatus
  createdAt : ℤ

/-- The `MarketError` enum from pills-market-types.ts. -/
inductive MarketError
  | INSUFFICIENT_FUNDS
  | INVALID_AMOUNT
  | MARKET_CLOSED
  | POSITION_NOT_FOUND
  | TRANSACTION_FAILED
  | ALREADY_RESOLVED
deriving DecidableEq

/-- Errors thrown by the engine: either a `MarketError` message or one of the
two plain `new Error(...)` messages. -/
inductive EngineError
  | market : MarketError → EngineError
  | kolNotFound
  | winningKolNotFound
deriving DecidableEq

/-- One entry of the `finalRanking` argument of `calculateMarketResolution`. -/
structure RankEntry where
  kolAddress : String
  rank : ℤ
  pnlSol : ℝ

/-- `MarketResolution` from pills-market-types.ts. -/
structure MarketResolution where
  periodId : String
  winner : String
  finalRanking : List RankEntry
  payoutPerShare : ℝ
  totalWinningShares : ℝ
  totalPrizePool : ℝ
  resolvedAt : ℤ

/-- `TRADING_CONFIG.MIN_BET` from pills-market-types.ts. -/
def MIN_BET : ℝ := 1

/-- The repeated `kolShares.reduce((sum, share) => sum + share.totalInvested, 0)`. -/
def totalInvestedOf (kolShares : List KOLShare) : ℝ :=
  (kolShares.map (fun s => s.totalInvested)).sum

/-- `Math.round(x * 10000) / 10000`: round to 4 decimal places.  JavaScript's
`Math.round` rounds half-way cases toward positive infinity, exactly as
Mathlib's `round` (`round x = ⌊x + 1/2⌋`). -/
noncomputable def roundTo4 (x : ℝ) : ℝ :=
  ((round (x * 10000) : ℤ) : ℝ) / 10000

/-- `PillsMarketEngine.calculateSharePrice`. -/
noncomputable def calculateSharePrice (kolShares : List KOLShare) (kolAddress : String)
    (shareAmount : ℝ) (isBuy : Bool) : Except EngineError ℝ :=
  match kolShares.find? (fun s => s.kolAddress == kolAddress) with
  | none => .error .kolNotFound
  | some targetKOL =>
    let basePrice : ℝ := 0.50
    let totalInvested := totalInvestedOf kolShares
    if totalInvested = 0 then
      .ok basePrice
    else
      let tradeValue := shareAmount * (if isBuy then 1 else -1)
      let newInvestment := max 0 (targetKOL.totalInvested + tradeValue)
      let newTotalInvested := totalInvested + (if isBuy then tradeValue else 0)
      let newMarketShare := newInvestment / max newTotalInvested 1
      let priceCurve := (newMarketShare * 2) ^ (1.5 : ℝ)
      let newPrice := min 0.95 (max 0.05 (basePrice + priceCurve))
      .ok (roundTo4 newPrice)

/-- `PillsMarketEngine.calculateProbabilities`.  The returned JS object is
modelled as an association list in insertion order. -/
noncomputable def calculateProbabilities (kolShares : List KOLShare) :
    List (String × ℝ) :=
  let totalInvested := totalInvestedOf kolShares
  if totalInvested = 0 then
    kolShares.map (fun share => (share.kolAddress, 1 / (kolShares.length : ℝ)))
  else
    let softmaxDenominator :=
      (kolShares.map (fun share => Real.exp (share.totalInvested / totalInvested * 5))).sum
    kolShares.map (fun share =>
      (share.kolAddress,
        roundTo4 (Real.exp (share.totalInvested / totalInvested * 5) / softmaxDenominator)))

/-- Result record of `executeBuyOrder`. -/
structure BuyOutcome where
  order : TradeOrder
  newPrice : ℝ
  sharesReceived : ℝ

/-- Result record of `executeSellOrder`. -/
structure SellOutcome where
  order : TradeOrder
  newPrice : ℝ
  pillsReceived : ℝ

/-- `PillsMarketEngine.executeBuyOrder`; `orderId` stands for the generated
random id string and `now` for `Date.now()`. -/
noncomputable def executeBuyOrder (userAddress periodId kolAddress : String)
    (pillsAmount : ℝ) (currentShares : List KOLShare)
    (orderId : String) (now : ℤ) : Except EngineError BuyOutcome :=
  if pillsAmount < MIN_BET then
    .error (.market .INVALID_AMOUNT)
  else
    match calculateSharePrice currentShares kolAddress 0 true with
    | .error e => .error e
    | .ok currentPrice =>
      let sharesReceived := pillsAmount / currentPrice
      match calculateSharePrice currentShares kolAddress pillsAmount true with
      | .error e => .error e
      | .ok newPrice =>
        .ok { order :=
                { id := orderId
                  userAddress := userAddress
                  periodId := periodId
                  kolAddress := kolAddress
                  type := .buy
                  shares := sharesReceived
                  pricePerShare := currentPrice
                  totalValue := pillsAmount
                  status := .pending
                  createdAt := now }
              newPrice := newPrice
              sharesReceived := sharesReceived }

/-- `PillsMarketEngine.executeSellOrder`. -/
noncomputable def executeSellOrder (userAddress periodId kolAddress : String)
    (sharesAmount : ℝ) (currentShares : List KOLShare) (userPosition : UserPosition)
    (orderId : String) (now : ℤ) : Except EngineError SellOutcome :=
  if sharesAmount > userPosition.sharesOwned then
    .error (.market .INSUFFICIENT_FUNDS)
  else
    match calculateSharePrice currentShares kolAddress 0 false with
    | .error e => .error e
    | .ok currentPrice =>
      let pillsReceived := sharesAmount * currentPrice
      match calculateSharePrice currentShares kolAddress (-pillsReceived) false with
      | .error e => .error e
      | .ok newPrice =>
        .ok { order :=
                { id := orderId
                  userAddress := userAddress
                  periodId := periodId
                  kolAddress := kolAddress
                  type := .sell
                  shares := sharesAmount
                  pricePerShare := currentPrice
                  totalValue := pillsReceived
                  status := .pending
                  createdAt := now }
              newPrice := newPrice
              pillsReceived := pillsReceived }

/-- `PillsMarketEngine.updateKOLShareAfterTrade`; `now` stands for `Date.now()`. -/
def updateKOLShareAfterTrade (kolShare : KOLShare) (order : TradeOrder)
    (newPrice : ℝ) (now : ℤ) : KOLShare :=
  { kolShare with
    pricePerShare := newPrice
    totalShares := kolShare.totalShares +
      (if order.type = .buy then order.shares else -order.shares)
    totalInvested := kolShare.totalInvested +
      (if order.type = .buy then order.totalValue else -order.totalValue)
    lastUpdated := now
    probability := 0 }

/-- `PillsMarketEngine.updateUserPosition`.  The `realizedPnL` local of the
source is computed but never used, and is dropped here. -/
noncomputable def updateUserPosition (existingPosition : Option UserPosition)
    (order : TradeOrder) (userAddress : String) : Except EngineError UserPosition :=
  match existingPosition with
  | none =>
    if order.type = .sell then
      .error (.market .POSITION_NOT_FOUND)
    else
      .ok { userAddress := userAddress
            periodId := order.periodId
            kolAddress := order.kolAddress
            sharesOwned := order.shares
            averagePrice := order.pricePerShare
            totalInvested := order.totalValue
            currentValue := order.totalValue
            unrealizedPnL := 0
            lastTradeAt := order.createdAt }
  | some existing =>
    if order.type = .buy then
      let newTotalShares := existing.sharesOwned + order.shares
      let newTotalInvested := existing.totalInvested + order.totalValue
      let newAveragePrice := newTotalInvested / newTotalShares
      .ok { existing with
            sharesOwned := newTotalShares
            averagePrice := newAveragePrice
            totalInvested := newTotalInvested
            currentValue := newTotalShares * order.pricePerShare
            unrealizedPnL := newTotalShares * order.pricePerShare - newTotalInvested
            lastTradeAt := order.createdAt }
    else
      let newTotalShares := existing.sharesOwned - order.shares
      if newTotalShares ≤ 0 then
        .ok { existing with
              sharesOwned := 0
              currentValue := 0
              unrealizedPnL := 0
              lastTradeAt := order.createdAt }
      else
        .ok { existing with
              sharesOwned := newTotalShares
              currentValue := newTotalShares * order.pricePerShare
              unrealizedPnL := newTotalShares * order.pricePerShare -
                (existing.totalInvested - order.totalValue)
              lastTradeAt := order.createdAt }

/-- `PillsMarketEngine.calculateMarketResolution`; `now` stands for `Date.now()`. -/
noncomputable def calculateMarketResolution (periodId winningKOLAddress : String)
    (kolShares : List KOLShare) (finalRanking : List RankEntry) (now : ℤ) :
    Except EngineError MarketResolution :=
  match kolShares.find? (fun s => s.kolAddress == winningKOLAddress) with
  | none => .error .winningKolNotFound
  | some winningKOLShare =>
    let totalPrizePool := totalInvestedOf kolShares
    let totalWinningShares := winningKOLShare.totalShares
    let payoutPerShare :=
      if totalWinningShares > 0 then totalPrizePool / totalWinningShares else 0
    .ok { periodId := periodId
          winner := winningKOLAddress
          finalRanking := finalRanking
          payoutPerShare := payoutPerShare
          totalWinningShares := totalWinningShares
          totalPrizePool := totalPrizePool
          resolvedAt := now }

/-- Milliseconds per 24-hour period. -/
def msPerDay : ℤ := 86400000

/-- The `currentPeriod` computation of `useMarketData` in use-pills-market.ts.
The code extracts the UTC calendar date of `now` (`getUTCFullYear`,
`getUTCMonth`, `getUTCDate`) and recombines it with `new Date(year, month,
day)`, which ECMAScript interprets in the runtime's **local** time zone, so
`startTime` is the local-midnight instant of the UTC calendar day of `now`:
`Date.UTC(y, m, d)` is the UTC-day floor of `now`, and the local-time
constructor subtracts the zone offset.  `tzOffsetMs` is the runtime's offset
east of UTC in milliseconds (0 in a UTC runtime). -/
def currentPeriod (now : ℤ) (tzOffsetMs : ℤ) : MarketPeriod :=
  let startTime := msPerDay * (now.fdiv msPerDay) - tzOffsetMs
  let endTime := startTime + msPerDay
  { id := "period_" ++ toString startTime
    epochNumber := startTime.fdiv msPerDay
    startTime := startTime
    endTime := endTime
    isActive := decide (startTime ≤ now) && decide (now < endTime)
    isResolved := decide (endTime ≤ now)
    totalVolume := 0 }

/-! ### Helper lemmas about rounding and the price formula -/

/-- Closed form of the non-degenerate branch of `calculateSharePrice`:
`t` is the target's `totalInvested`, `T` the market total, `d` the
`shareAmount` argument. -/
noncomputable def sharePriceCore (t T d : ℝ) (isBuy : Bool) : ℝ :=
  let tradeValue := d * (if isBuy then 1 else -1)
  let newInvestment := max 0 (t + tradeValue)
  let newTotalInvested := T + (if isBuy then tradeValue else 0)
  let newMarketShare := newInvestment / max newTotalInvested 1
  roundTo4 (min 0.95 (max 0.05 (0.50 + (newMarketShare * 2) ^ (1.5 : ℝ))))

theorem calculateSharePrice_eq_core (kolShares : List KOLShare) (kolAddress : String)
    (d : ℝ) (b : Bool) (tgt : KOLShare)
    (hf : kolShares.find? (fun s => s.kolAddress == kolAddress) = some tgt)
    (hT : totalInvestedOf kolShares ≠ 0) :
    calculateSharePrice kolShares kolAddress d b =
      .ok (sharePriceCore tgt.totalInvested (totalInvestedOf kolShares) d b) := by
  rw [calculateSharePrice, hf]
  simp only [hT, if_false, sharePriceCore]

theorem calculateSharePrice_eq_base (kolShares : List KOLShare) (kolAddress : String)
    (d : ℝ) (b : Bool) (tgt : KOLShare)
    (hf : kolShares.find? (fun s => s.kolAddress == kolAddress) = some tgt)
    (hT : totalInvestedOf kolShares = 0) :
    calculateSharePrice kolShares kolAddress d b = .ok 0.50 := by
  rw [calculateSharePrice, hf]
  simp only [hT, if_true]

theorem roundTo4_mono {x y : ℝ} (h : x ≤ y) : roundTo4 x ≤ roundTo4 y := by
  unfold roundTo4
  have hr : round (x * 10000) ≤ round (y * 10000) := by
    rw [round_eq, round_eq]
    exact Int.floor_le_floor (by linarith)
  have : ((round (x * 10000) : ℤ) : ℝ) ≤ ((round (y * 10000) : ℤ) : ℝ) := by
    exact_mod_cast hr
  linarith

theorem roundTo4_eq_of (x : ℝ) (n : ℤ) (h1 : (n : ℝ) ≤ x * 10000 + 1 / 2)
    (h2 : x * 10000 + 1 / 2 < n + 1) : roundTo4 x = (n : ℝ) / 10000 := by
  unfold roundTo4
  rw [round_eq, Int.floor_eq_iff.mpr ⟨h1, h2⟩]

theorem roundTo4_base : roundTo4 0.50 = 0.50 := by
  rw [roundTo4_eq_of 0.50 5000 (by norm_num) (by norm_num)]
  norm_num

theorem roundTo4_cap : roundTo4 0.95 = 0.95 := by
  rw [roundTo4_eq_of 0.95 9500 (by norm_num) (by norm_num)]
  norm_num

theorem clamped_curve_bounds (s : ℝ) (hs0 : 0 ≤ s) :
    0.50 ≤ roundTo4 (min 0.95 (max 0.05 (0.50 + (s * 2) ^ (1.5 : ℝ)))) ∧
    roundTo4 (min 0.95 (max 0.05 (0.50 + (s * 2) ^ (1.5 : ℝ)))) ≤ 0.95 := by
  have hc0 : 0 ≤ (s * 2) ^ (1.5 : ℝ) := Real.rpow_nonneg (by linarith) _
  have hmax : max (0.05 : ℝ) (0.50 + (s * 2) ^ (1.5 : ℝ)) = 0.50 + (s * 2) ^ (1.5 : ℝ) :=
    max_eq_right (by linarith)
  rw [hmax]
  constructor
  · calc (0.50 : ℝ) = roundTo4 0.50 := roundTo4_base.symm
    _ ≤ roundTo4 (min 0.95 (0.50 + (s * 2) ^ (1.5 : ℝ))) := by
        apply roundTo4_mono
        exact le_min (by norm_num) (by linarith)
  · calc roundTo4 (min 0.95 (0.50 + (s * 2) ^ (1.5 : ℝ)))
        ≤ roundTo4 0.95 := roundTo4_mono (min_le_left _ _)
    _ = 0.95 := roundTo4_cap

theorem sharePriceCore_bounds (t T d : ℝ) (b : Bool) :
    0.50 ≤ sharePriceCore t T d b ∧ sharePriceCore t T d b ≤ 0.95 := by
  simp only [sharePriceCore]
  apply clamped_curve_bounds
  apply div_nonneg (le_max_left _ _)
  exact le_trans zero_le_one (le_max_right _ _)

/-! ### Concrete two-candidate fixture: candidates A and B, zero investment -/

/-- Candidate A at the opening of a period: price 0.50, no shares, no investment. -/
def shareA : KOLShare :=
  { periodId := "p", kolAddress := "A", pricePerShare := 0.50, totalShares := 0,
    totalInvested := 0, probability := 0.5, lastUpdated := 0 }

/-- Candidate B at the opening of a period. -/
def shareB : KOLShare :=
  { periodId := "p", kolAddress := "B", pricePerShare := 0.50, totalShares := 0,
    totalInvested := 0, probability := 0.5, lastUpdated := 0 }

/-- The freshly opened two-candidate market of the spec scenario. -/
def marketAB : List KOLShare := [shareA, shareB]

theorem find_A_marketAB : marketAB.find? (fun s => s.kolAddress == "A") = some shareA := rfl

theorem totalInvestedOf_marketAB : totalInvestedOf marketAB = 0 := by
  simp [totalInvestedOf, marketAB, shareA, shareB]

theorem calculateSharePrice_marketAB (d : ℝ) (b : Bool) :
    calculateSharePrice marketAB "A" d b = .ok 0.50 :=
  calculateSharePrice_eq_base _ _ _ _ shareA find_A_marketAB totalInvestedOf_marketAB

/-! ### Claim theorems -/

/-- C7: every price returned by `calculateSharePrice` lies in [0.05, 0.95]. -/
theorem calculateSharePrice_in_bounds (kolShares : List KOLShare) (kolAddress : String)
    (d p : ℝ) (b : Bool) (h : calculateSharePrice kolShares kolAddress d b = .ok p) :
    0.05 ≤ p ∧ p ≤ 0.95 := by
  cases hf : kolShares.find? (fun s => s.kolAddress == kolAddress) with
  | none => rw [calculateSharePrice, hf] at h; cases h
  | some tgt =>
    by_cases hT : totalInvestedOf kolShares = 0
    · rw [calculateSharePrice_eq_base _ _ _ _ tgt hf hT] at h
      cases h
      norm_num
    · rw [calculateSharePrice_eq_core _ _ _ _ tgt hf hT] at h
      cases h
      have hb := sharePriceCore_bounds tgt.totalInvested (totalInvestedOf kolShares) d b
      exact ⟨by linarith [hb.1], hb.2⟩

/-- C7 witness: the bounds hold for the concrete price of the fresh A/B market. -/
theorem calculateSharePrice_in_bounds_witness :
    (0.05 : ℝ) ≤ 0.50 ∧ (0.50 : ℝ) ≤ 0.95 :=
  calculateSharePrice_in_bounds marketAB "A" 100 0.50 true (calculateSharePrice_marketAB 100 true)

/-- C10: every price returned by `calculateSharePrice` is at least the base
price 0.50 — the curve term is nonnegative, so the 0.05 lower clamp never
binds, even for sells. -/
theorem calculateSharePrice_ge_base (kolShares : List KOLShare) (kolAddress : String)
    (d p : ℝ) (b : Bool) (h : calculateSharePrice kolShares kolAddress d b = .ok p) :
    0.50 ≤ p := by
  cases hf : kolShares.find? (fun s => s.kolAddress == kolAddress) with
  | none => rw [calculateSharePrice, hf] at h; cases h
  | some tgt =>
    by_cases hT : totalInvestedOf kolShares = 0
    · rw [calculateSharePrice_eq_base _ _ _ _ tgt hf hT] at h
      cases h
      norm_num
    · rw [calculateSharePrice_eq_core _ _ _ _ tgt hf hT] at h
      cases h
      exact (sharePriceCore_bounds tgt.totalInvested (totalInvestedOf kolShares) d b).1

/-- C10 witness: the base-price lower bound at a concrete sell call. -/
theorem calculateSharePrice_ge_base_witness : (0.50 : ℝ) ≤ 0.50 :=
  calculateSharePrice_ge_base marketAB "A" (-7) 0.50 false (calculateSharePrice_marketAB (-7) false)

/-- C2: the divergence of `currentPeriod`.  In a UTC runtime (offset 0) the
computation yields exactly the values the claim states for
`now = 2024-03-15T23:59:59Z` (= 1710547199000 ms) and flips to the next
period at `now = 2024-03-16T00:00:00Z` (= 1710547200000 ms); but in a UTC+2
runtime (offset 7200000 ms) the same `now` yields
`startTime` = 2024-03-14T22:00:00Z (= 1710453600000 ms), `epochNumber`
19796 and `isActive = false`, because `new Date(year, month, day)` uses
local time, contradicting the claim and the code's own "in UTC" comment. -/
theorem currentPeriod_local_midnight_divergence :
    (currentPeriod 1710547199000 0).startTime = 1710460800000 ∧
    (currentPeriod 1710547199000 0).endTime = 1710547200000 ∧
    (currentPeriod 1710547199000 0).id = "period_1710460800000" ∧
    (currentPeriod 1710547199000 0).epochNumber = 19797 ∧
    (currentPeriod 1710547199000 0).isActive = true ∧
    (currentPeriod 1710547199000 0).isResolved = false ∧
    (currentPeriod 1710547200000 0).startTime = 1710547200000 ∧
    (currentPeriod 1710547200000 0).id = "period_1710547200000" ∧
    (currentPeriod 1710547199000 7200000).startTime = 1710453600000 ∧
    (currentPeriod 1710547199000 7200000).epochNumber = 19796 ∧
    (currentPeriod 1710547199000 7200000).isActive = false := by
  decide

/-- C8: a sell whose `sharesAmount` exceeds the owned shares fails with
`INSUFFICIENT_FUNDS` before any price computation; the pure function returns
only the error, so no share or position state is produced. -/
theorem sell_insufficient_shares_rejected (u per addr : String) (sharesAmount : ℝ)
    (kolShares : List KOLShare) (pos : UserPosition) (oid : String) (now : ℤ)
    (h : pos.sharesOwned < sharesAmount) :
    executeSellOrder u per addr sharesAmount kolShares pos oid now =
      .error (.market .INSUFFICIENT_FUNDS) := by
  unfold executeSellOrder
  rw [if_pos h]

/-- Empty user position used by concrete scenarios. -/
def emptyPos : UserPosition :=
  { userAddress := "u", periodId := "p", kolAddress := "A", sharesOwned := 0,
    averagePrice := 0, totalInvested := 0, currentValue := 0, unrealizedPnL := 0,
    lastTradeAt := 0 }

/-- C8 witness: selling 1 share with 0 owned is rejected. -/
theorem sell_insufficient_shares_rejected_witness :
    emptyPos.sharesOwned < (1 : ℝ) ∧
    executeSellOrder "u" "p" "A" 1 marketAB emptyPos "o" 0 =
      .error (.market .INSUFFICIENT_FUNDS) :=
  ⟨by norm_num [emptyPos],
   sell_insufficient_shares_rejected "u" "p" "A" 1 marketAB emptyPos "o" 0
     (by norm_num [emptyPos])⟩

/-- A filled order of `X` shares at price `q` (total value `X * q`), as used by
the round-trip scenario. -/
def rtOrder (ty : OrderType) (X q : ℝ) : TradeOrder :=
  { id := "o", userAddress := "u", periodId := "p", kolAddress := "A",
    type := ty, shares := X, pricePerShare := q, totalValue := X * q,
    status := .filled, createdAt := 0 }

/-- C9: buying `X` shares into an empty position and then selling exactly `X`
shares at the unchanged price returns a position with `sharesOwned = 0`
(the resulting-shares-≤-0 branch closes the position), with no error. -/
theorem buy_sell_round_trip_closes_position (X q : ℝ) (hX : 0 < X) :
    ((updateUserPosition none (rtOrder .buy X q) "u").bind
        (fun pos => updateUserPosition (some pos) (rtOrder .sell X q) "u")).map
      (fun pos => pos.sharesOwned) = .ok 0 := by
  have h0 : X - X ≤ (0 : ℝ) := by simp
  simp [updateUserPosition, rtOrder, h0, Except.bind, Except.map]

/-- C9 witness: the round trip at `X = 1`, `q = 2`. -/
theorem buy_sell_round_trip_closes_position_witness :
    (0 : ℝ) < 1 ∧
    ((updateUserPosition none (rtOrder .buy 1 2) "u").bind
        (fun pos => updateUserPosition (some pos) (rtOrder .sell 1 2) "u")).map
      (fun pos => pos.sharesOwned) = .ok 0 :=
  ⟨by norm_num, buy_sell_round_trip_closes_position 1 2 (by norm_num)⟩

/-- C4: `calculateMarketResolution` returns the prize pool (sum of all
invested), the winner's `totalShares` as `totalWinningShares`, the guarded
pro-rata `payoutPerShare` (0 when there are no winning shares, with no
division error), and payout conservation holds. -/
theorem marketResolution_payout_spec (periodId winAddr : String)
    (kolShares : List KOLShare) (ranking : List RankEntry) (now : ℤ) (w : KOLShare)
    (hfind : kolShares.find? (fun s => s.kolAddress == winAddr) = some w)
    (hnn : ∀ s ∈ kolShares, 0 ≤ s.totalInvested) :
    calculateMarketResolution periodId winAddr kolShares ranking now =
      .ok { periodId := periodId, winner := winAddr, finalRanking := ranking,
            payoutPerShare :=
              if w.totalShares > 0 then totalInvestedOf kolShares / w.totalShares else 0,
            totalWinningShares := w.totalShares,
            totalPrizePool := totalInvestedOf kolShares,
            resolvedAt := now } ∧
    (if w.totalShares > 0 then totalInvestedOf kolShares / w.totalShares else 0) *
        w.totalShares ≤ totalInvestedOf kolShares := by
  have hpool : 0 ≤ totalInvestedOf kolShares := by
    apply List.sum_nonneg
    intro x hx
    obtain ⟨s, hs, rfl⟩ := List.mem_map.mp hx
    exact hnn s hs
  constructor
  · rw [calculateMarketResolution, hfind]
  · by_cases hw : w.totalShares > 0
    · rw [if_pos hw, div_mul_cancel₀ _ (ne_of_gt hw)]
    · rw [if_neg hw, zero_mul]
      exact hpool

/-- C4 witness: resolving the fresh A/B market (winner A, zero winning shares)
gives `payoutPerShare = 0` with no division error, and conservation holds. -/
theorem marketResolution_payout_spec_witness :
    (calculateMarketResolution "p" "A" marketAB [] 0 =
      .ok { periodId := "p", winner := "A", finalRanking := [],
            payoutPerShare :=
              if shareA.totalShares > 0 then totalInvestedOf marketAB / shareA.totalShares else 0,
            totalWinningShares := shareA.totalShares,
            totalPrizePool := totalInvestedOf marketAB,
            resolvedAt := 0 } ∧
    (if shareA.totalShares > 0 then totalInvestedOf marketAB / shareA.totalShares else 0) *
        shareA.totalShares ≤ totalInvestedOf marketAB) :=
  marketResolution_payout_spec "p" "A" marketAB [] 0 shareA find_A_marketAB
    (by intro s hs; fin_cases hs <;> norm_num [shareA, shareB])

/-! ### The spec's buy-100-on-A scenario, and what a follow-up sell does -/

/-- The order produced by buying 100 PILLS of A on the fresh A/B market. -/
def orderBuy100 : TradeOrder :=
  { id := "o1", userAddress := "u", periodId := "p", kolAddress := "A",
    type := .buy, shares := 200, pricePerShare := 0.50, totalValue := 100,
    status := .pending, createdAt := 0 }

theorem buyAB_run :
    executeBuyOrder "u" "p" "A" 100 marketAB "o1" 0 =
      .ok { order := orderBuy100, newPrice := 0.50, sharesReceived := 200 } := by
  unfold executeBuyOrder
  rw [if_neg (by norm_num [MIN_BET] : ¬(100 : ℝ) < MIN_BET)]
  rw [calculateSharePrice_marketAB 0 true, calculateSharePrice_marketAB 100 true]
  simp only [Except.ok.injEq, BuyOutcome.mk.injEq, TradeOrder.mk.injEq, orderBuy100]
  norm_num

/-- C1 counterexample: on the two-candidate zero-investment market, buying 100
PILLS of A returns `sharesReceived = 200` but `newPrice = 0.50`, not the
claimed 0.95 — `calculateSharePrice` early-returns the base price because the
pre-trade `totalInvested` is zero. -/
theorem buy_scenario_newPrice_not_claimed :
    (executeBuyOrder "u" "p" "A" 100 marketAB "o1" 0).map (fun r => r.newPrice) =
      .ok 0.50 ∧ (0.50 : ℝ) ≠ 0.95 := by
  rw [buyAB_run]
  norm_num [Except.map]

/-- C1 (amended): the buy yields `sharesReceived = 200` and `newPrice = 0.50`
(the zero-total early return of `calculateSharePrice`; the curve is not
evaluated because the simulated totals are computed from the pre-trade
shares, which are all zero). -/
theorem buy_scenario_shares_and_newPrice :
    (executeBuyOrder "u" "p" "A" 100 marketAB "o1" 0).map
      (fun r => (r.sharesReceived, r.newPrice)) = .ok (200, 0.50) := by
  rw [buyAB_run]
  norm_num [Except.map]

/-- Candidate A after the 100-PILLS buy is applied. -/
def shareA100 : KOLShare :=
  { periodId := "p", kolAddress := "A", pricePerShare := 0.50, totalShares := 200,
    totalInvested := 100, probability := 0, lastUpdated := 0 }

theorem updateA_run : updateKOLShareAfterTrade shareA orderBuy100 0.50 0 = shareA100 := by
  simp only [updateKOLShareAfterTrade, orderBuy100, shareA, shareA100]
  norm_num

/-- The market after the buy: A holds 100 invested, B none. -/
def market2 : List KOLShare := [shareA100, shareB]

theorem find_A_market2 : market2.find? (fun s => s.kolAddress == "A") = some shareA100 := rfl

theorem totalInvestedOf_market2 : totalInvestedOf market2 = 100 := by
  simp [totalInvestedOf, market2, shareA100, shareB]

/-- The user's position after the buy. -/
def posA : UserPosition :=
  { userAddress := "u", periodId := "p", kolAddress := "A", sharesOwned := 200,
    averagePrice := 0.50, totalInvested := 100, currentValue := 100,
    unrealizedPnL := 0, lastTradeAt := 0 }

theorem positionA_run : updateUserPosition none orderBuy100 "u" = .ok posA := by
  simp only [updateUserPosition]
  rw [if_neg (by decide : ¬(orderBuy100.type = OrderType.sell))]
  simp only [Except.ok.injEq, UserPosition.mk.injEq, orderBuy100, posA]

theorem roundTo4_clamp_cap {c : ℝ} (hc : 0.45 ≤ c) :
    roundTo4 (min 0.95 (max 0.05 (0.50 + c))) = 0.95 := by
  rw [max_eq_right (by linarith), min_eq_left (by linarith), roundTo4_cap]

theorem curve_cap_of_two_le {x : ℝ} (hx : 2 ≤ x) : (0.45 : ℝ) ≤ x ^ (1.5 : ℝ) := by
  calc (0.45 : ℝ) ≤ 2 := by norm_num
  _ = (2 : ℝ) ^ (1 : ℝ) := (Real.rpow_one 2).symm
  _ ≤ (2 : ℝ) ^ (1.5 : ℝ) := Real.rpow_le_rpow_of_exponent_le (by norm_num) (by norm_num)
  _ ≤ x ^ (1.5 : ℝ) := Real.rpow_le_rpow (by norm_num) hx (by norm_num)

theorem priceMarket2_read : calculateSharePrice market2 "A" 0 false = .ok 0.95 := by
  rw [calculateSharePrice_eq_core market2 "A" 0 false shareA100 find_A_market2
    (by rw [totalInvestedOf_market2]; norm_num)]
  rw [totalInvestedOf_market2]
  congr 1
  show sharePriceCore shareA100.totalInvested 100 0 false = 0.95
  have htgt : shareA100.totalInvested = 100 := rfl
  rw [htgt]
  simp only [sharePriceCore, Bool.false_eq_true, if_false]
  rw [show (100 : ℝ) + 0 * -1 = 100 by norm_num,
    max_eq_right (by norm_num : (0 : ℝ) ≤ 100),
    show (100 : ℝ) + 0 = 100 by norm_num,
    max_eq_left (by norm_num : (1 : ℝ) ≤ 100),
    show (100 : ℝ) / 100 * 2 = 2 by norm_num]
  exact roundTo4_clamp_cap (curve_cap_of_two_le (by norm_num))

theorem priceMarket2_after_sell : calculateSharePrice market2 "A" (-190) false = .ok 0.95 := by
  rw [calculateSharePrice_eq_core market2 "A" (-190) false shareA100 find_A_market2
    (by rw [totalInvestedOf_market2]; norm_num)]
  rw [totalInvestedOf_market2]
  congr 1
  show sharePriceCore shareA100.totalInvested 100 (-190) false = 0.95
  have htgt : shareA100.totalInvested = 100 := rfl
  rw [htgt]
  simp only [sharePriceCore, Bool.false_eq_true, if_false]
  rw [show (100 : ℝ) + -190 * -1 = 290 by norm_num,
    max_eq_right (by norm_num : (0 : ℝ) ≤ 290),
    show (100 : ℝ) + 0 = 100 by norm_num,
    max_eq_left (by norm_num : (1 : ℝ) ≤ 100),
    show (290 : ℝ) / 100 * 2 = 5.8 by norm_num]
  exact roundTo4_clamp_cap (curve_cap_of_two_le (by norm_num))

/-- The sell order produced by selling all 200 shares at price 0.95. -/
def orderSell190 : TradeOrder :=
  { id := "o2", userAddress := "u", periodId := "p", kolAddress := "A",
    type := .sell, shares := 200, pricePerShare := 0.95, totalValue := 190,
    status := .pending, createdAt := 0 }

theorem sellAB_run :
    executeSellOrder "u" "p" "A" 200 market2 posA "o2" 0 =
      .ok { order := orderSell190, newPrice := 0.95, pillsReceived := 190 } := by
  unfold executeSellOrder
  rw [if_neg (by norm_num [posA] : ¬(200 : ℝ) > posA.sharesOwned)]
  rw [priceMarket2_read]
  dsimp only
  rw [show (-(200 * 0.95) : ℝ) = (-190 : ℝ) by norm_num]
  rw [priceMarket2_after_sell]
  dsimp only
  simp only [Except.ok.injEq, SellOutcome.mk.injEq, TradeOrder.mk.injEq, orderSell190]
  norm_num

/-- C3 counterexample: from the fresh A/B market, buy 100 PILLS of A (the
sell-side check `sharesAmount ≤ sharesOwned` then passes with 200 shares),
then sell all 200 shares: the sell is priced at 0.95, pays out 190, and
`updateKOLShareAfterTrade` drives A's `totalInvested` to −90 < 0. -/
theorem totalInvested_negative_after_sell :
    executeBuyOrder "u" "p" "A" 100 marketAB "o1" 0 =
      .ok { order := orderBuy100, newPrice := 0.50, sharesReceived := 200 } ∧
    updateKOLShareAfterTrade shareA orderBuy100 0.50 0 = shareA100 ∧
    updateUserPosition none orderBuy100 "u" = .ok posA ∧
    posA.sharesOwned = 200 ∧
    executeSellOrder "u" "p" "A" 200 market2 posA "o2" 0 =
      .ok { order := orderSell190, newPrice := 0.95, pillsReceived := 190 } ∧
    (updateKOLShareAfterTrade shareA100 orderSell190 0.95 0).totalInvested = -90 ∧
    (-90 : ℝ) < 0 := by
  refine ⟨buyAB_run, updateA_run, positionA_run, rfl, sellAB_run, ?_, by norm_num⟩
  simp only [updateKOLShareAfterTrade, orderSell190, shareA100]
  rw [if_neg (by decide : ¬(OrderType.sell = OrderType.buy))]
  norm_num

/-- C3 (amended): under buy orders alone — each order produced by
`executeBuyOrder` is a buy with `totalValue = pillsAmount ≥ MIN_BET > 0` —
folding `updateKOLShareAfterTrade` over any sequence keeps a candidate's
`totalInvested` nonnegative; the unclamped sell subtraction is what breaks
the invariant. -/
theorem totalInvested_nonneg_of_buys (share : KOLShare)
    (steps : List (TradeOrder × ℝ × ℤ)) (h0 : 0 ≤ share.totalInvested)
    (hb : ∀ s ∈ steps, s.1.type = .buy ∧ 0 ≤ s.1.totalValue) :
    0 ≤ ((steps.foldl (fun sh s => updateKOLShareAfterTrade sh s.1 s.2.1 s.2.2)
      share).totalInvested) := by
  induction steps generalizing share with
  | nil => exact h0
  | cons st rest ih =>
    rw [List.foldl_cons]
    apply ih
    · obtain ⟨hty, hv⟩ := hb st (List.mem_cons_self st rest)
      simp only [updateKOLShareAfterTrade, hty, if_true]
      linarith
    · intro s hs
      exact hb s (List.mem_cons_of_mem st hs)

/-- C3 amended witness: one concrete buy applied to fresh candidate A. -/
theorem totalInvested_nonneg_of_buys_witness :
    0 ≤ shareA.totalInvested ∧
    0 ≤ (([(orderBuy100, (0.50 : ℝ), (0 : ℤ))].foldl
      (fun sh s => updateKOLShareAfterTrade sh s.1 s.2.1 s.2.2) shareA).totalInvested) :=
  ⟨by norm_num [shareA],
   totalInvested_nonneg_of_buys shareA [(orderBuy100, 0.50, 0)] (by norm_num [shareA])
     (by intro s hs
         simp only [List.mem_singleton] at hs
         subst hs
         exact ⟨rfl, by norm_num [orderBuy100]⟩)⟩

/-! ### Probability normalization (C5) -/

theorem abs_roundTo4_sub (x : ℝ) : |roundTo4 x - x| ≤ 1 / 20000 := by
  have h := abs_sub_round (x * 10000)
  have heq : roundTo4 x - x = (((round (x * 10000) : ℤ) : ℝ) - x * 10000) / 10000 := by
    unfold roundTo4
    ring
  rw [heq, abs_div, abs_of_pos (by norm_num : (0 : ℝ) < 10000)]
  rw [abs_sub_comm] at h
  linarith

theorem sum_map_roundTo4_close (l : List ℝ) :
    |(l.map roundTo4).sum - l.sum| ≤ l.length * (1 / 20000) := by
  induction l with
  | nil => simp
  | cons a t ih =>
    simp only [List.map_cons, List.sum_cons, List.length_cons]
    have h1 := abs_roundTo4_sub a
    have habs : |roundTo4 a + (t.map roundTo4).sum - (a + t.sum)| ≤
        |roundTo4 a - a| + |(t.map roundTo4).sum - t.sum| := by
      have hsplit : roundTo4 a + (t.map roundTo4).sum - (a + t.sum) =
          (roundTo4 a - a) + ((t.map roundTo4).sum - t.sum) := by ring
      rw [hsplit]
      exact abs_add _ _
    push_cast
    linarith

theorem exp_sum_pos (l : List KOLShare) (hl : l ≠ []) (T : ℝ) :
    0 < (l.map (fun s => Real.exp (s.totalInvested / T * 5))).sum := by
  cases l with
  | nil => exact absurd rfl hl
  | cons a t =>
    simp only [List.map_cons, List.sum_cons]
    have h1 : 0 < Real.exp (a.totalInvested / T * 5) := Real.exp_pos _
    have h2 : 0 ≤ (t.map (fun s => Real.exp (s.totalInvested / T * 5))).sum := by
      apply List.sum_nonneg
      intro x hx
      obtain ⟨s, _, rfl⟩ := List.mem_map.mp hx
      exact (Real.exp_pos _).le
    linarith

theorem sum_map_div (l : List KOLShare) (f : KOLShare → ℝ) (c : ℝ) :
    (l.map (fun x => f x / c)).sum = (l.map f).sum / c := by
  induction l with
  | nil => simp
  | cons a t ih => simp only [List.map_cons, List.sum_cons, ih, add_div]

/-- C5 (amended): for non-degenerate share lists of at most 20 candidates
(nonempty, nonnegative investments, distinct addresses), the independently
rounded probabilities sum to 1 within 0.001; each rounding moves a value by
at most 1/20000, so 21 or more candidates can exceed the tolerance. -/
theorem probabilities_sum_close (l : List KOLShare) (hne : l ≠ [])
    (hnn : ∀ s ∈ l, 0 ≤ s.totalInvested) (hlen : l.length ≤ 20)
    (hnd : (l.map (fun s => s.kolAddress)).Nodup) :
    |((calculateProbabilities l).map (fun e => e.2)).sum - 1| ≤ 0.001 := by
  have hlpos : 0 < l.length := List.length_pos.mpr hne
  by_cases hT : totalInvestedOf l = 0
  · have hmap : (calculateProbabilities l).map (fun e => e.2) =
        l.map (fun _ => 1 / (l.length : ℝ)) := by
      simp only [calculateProbabilities, hT, if_true, List.map_map]
      rfl
    rw [hmap]
    rw [List.sum_eq_card_nsmul _ (1 / (l.length : ℝ)) ?_]
    · rw [List.length_map, nsmul_eq_mul, mul_one_div,
        div_self (by exact_mod_cast hlpos.ne' : (l.length : ℝ) ≠ 0)]
      norm_num
    · intro x hx
      obtain ⟨s, _, rfl⟩ := List.mem_map.mp hx
      rfl
  · have hmap : (calculateProbabilities l).map (fun e => e.2) =
        (l.map (fun s => Real.exp (s.totalInvested / totalInvestedOf l * 5) /
          (l.map (fun s2 =>
            Real.exp (s2.totalInvested / totalInvestedOf l * 5))).sum)).map roundTo4 := by
      simp only [calculateProbabilities]
      rw [if_neg hT, List.map_map, List.map_map]
      rfl
    have hD : 0 < (l.map (fun s2 =>
        Real.exp (s2.totalInvested / totalInvestedOf l * 5))).sum := exp_sum_pos l hne _
    have hsum : (l.map (fun s => Real.exp (s.totalInvested / totalInvestedOf l * 5) /
        (l.map (fun s2 =>
          Real.exp (s2.totalInvested / totalInvestedOf l * 5))).sum)).sum = 1 := by
      rw [sum_map_div]
      exact div_self hD.ne'
    have hclose := sum_map_roundTo4_close (l.map
      (fun s => Real.exp (s.totalInvested / totalInvestedOf l * 5) /
        (l.map (fun s2 => Real.exp (s2.totalInvested / totalInvestedOf l * 5))).sum))
    rw [hsum, List.length_map] at hclose
    rw [hmap]
    refine le_trans hclose ?_
    have hl20 : (l.length : ℝ) ≤ 20 := by exact_mod_cast hlen
    linarith

/-- C5 witness: the fresh two-candidate market sums to 1 within tolerance. -/
theorem probabilities_sum_close_witness :
    marketAB ≠ [] ∧ marketAB.length ≤ 20 ∧
    |((calculateProbabilities marketAB).map (fun e => e.2)).sum - 1| ≤ 0.001 :=
  ⟨by simp [marketAB], by simp [marketAB],
   probabilities_sum_close marketAB (by simp [marketAB])
     (by intro s hs; fin_cases hs <;> norm_num [shareA, shareB])
     (by simp [marketAB])
     (by simp [marketAB, shareA, shareB])⟩

/-- Address of candidate `n`: the string of `n` letters `a` (injective in `n`). -/
def mkAddr (n : ℕ) : String := String.mk (List.replicate n 'a')

theorem mkAddr_inj : Function.Injective mkAddr := by
  intro a b h
  have hdata : List.replicate a 'a' = List.replicate b 'a' := by
    simpa [mkAddr] using congrArg String.data h
  have hlen := congrArg List.length hdata
  simpa using hlen

/-- Candidate `n` with 1 PILLS invested. -/
def uShare (n : ℕ) : KOLShare :=
  { periodId := "p", kolAddress := mkAddr n, pricePerShare := 0.50, totalShares := 0,
    totalInvested := 1, probability := 0, lastUpdated := 0 }

/-- 48 distinct candidates, each with 1 PILLS invested. -/
def c48 : List KOLShare := (List.range 48).map uShare

theorem c48_length : c48.length = 48 := by simp [c48]

theorem c48_ne : c48 ≠ [] := by
  intro h
  have hl := c48_length
  rw [h] at hl
  simp at hl

theorem c48_mem {s : KOLShare} (hs : s ∈ c48) : s.totalInvested = 1 := by
  simp only [c48] at hs
  obtain ⟨i, _, rfl⟩ := List.mem_map.mp hs
  rfl

theorem c48_total : totalInvestedOf c48 = 48 := by
  unfold totalInvestedOf
  rw [List.sum_eq_card_nsmul _ (1 : ℝ) ?_]
  · rw [List.length_map, c48_length]
    norm_num
  · intro x hx
    obtain ⟨s, hs, rfl⟩ := List.mem_map.mp hx
    exact c48_mem hs

theorem c48_nodup : (c48.map (fun s => s.kolAddress)).Nodup := by
  simp only [c48, List.map_map]
  exact (List.nodup_range 48).map mkAddr_inj

theorem roundTo4_inv48 : roundTo4 (1 / 48) = 0.0208 := by
  rw [roundTo4_eq_of (1 / 48) 208 (by norm_num) (by norm_num)]
  norm_num

theorem c48_probs_sum : ((calculateProbabilities c48).map (fun e => e.2)).sum = 0.9984 := by
  have h48 := c48_total
  have hmap : (calculateProbabilities c48).map (fun e => e.2) =
      c48.map (fun s => roundTo4 (Real.exp (s.totalInvested / totalInvestedOf c48 * 5) /
        (c48.map (fun s2 =>
          Real.exp (s2.totalInvested / totalInvestedOf c48 * 5))).sum)) := by
    simp only [calculateProbabilities]
    rw [if_neg (by rw [h48]; norm_num), List.map_map]
    rfl
  rw [hmap]
  simp only [h48]
  have hD : (c48.map (fun s2 => Real.exp (s2.totalInvested / 48 * 5))).sum =
      48 * Real.exp (1 / 48 * 5) := by
    rw [List.sum_eq_card_nsmul _ (Real.exp (1 / 48 * 5)) ?_]
    · rw [List.length_map, c48_length, nsmul_eq_mul]
      norm_num
    · intro x hx
      obtain ⟨s, hs, rfl⟩ := List.mem_map.mp hx
      rw [c48_mem hs]
  rw [List.sum_eq_card_nsmul _ (0.0208 : ℝ) ?_]
  · rw [List.length_map, c48_length, nsmul_eq_mul]
    norm_num
  · intro x hx
    obtain ⟨s, hs, rfl⟩ := List.mem_map.mp hx
    rw [c48_mem hs, hD]
    rw [show Real.exp (1 / 48 * 5) / (48 * Real.exp (1 / 48 * 5)) = 1 / 48 by
      rw [div_mul_eq_div_div, div_right_comm, div_self (Real.exp_ne_zero _)]]
    exact roundTo4_inv48

/-- C5 counterexample: 48 candidates with equal investment form a
non-degenerate share list whose rounded probabilities (each exactly
`roundTo4 (1/48) = 0.0208`) sum to 0.9984, which misses 1 by 0.0016,
beyond the claimed 0.001 tolerance. -/
theorem probabilities_sum_deviation_48 :
    c48 ≠ [] ∧ (∀ s ∈ c48, 0 ≤ s.totalInvested) ∧
    (c48.map (fun s => s.kolAddress)).Nodup ∧
    ((calculateProbabilities c48).map (fun e => e.2)).sum = 0.9984 ∧
    ¬(|((calculateProbabilities c48).map (fun e => e.2)).sum - 1| ≤ 0.001) := by
  refine ⟨c48_ne, ?_, c48_nodup, c48_probs_sum, ?_⟩
  · intro s hs
    rw [c48_mem hs]
    norm_num
  · rw [c48_probs_sum]
    intro h
    rw [abs_le] at h
    linarith [h.1]

/-! ### Monotonicity in the candidate's own investment (C6) -/

/-- Replace a share's `totalInvested`, keeping every other field. -/
def setInvested (s : KOLShare) (t : ℝ) : KOLShare := { s with totalInvested := t }

theorem totalInvestedOf_append (l₁ l₂ : List KOLShare) :
    totalInvestedOf (l₁ ++ l₂) = totalInvestedOf l₁ + totalInvestedOf l₂ := by
  simp [totalInvestedOf]

theorem totalInvestedOf_cons (s : KOLShare) (l : List KOLShare) :
    totalInvestedOf (s :: l) = s.totalInvested + totalInvestedOf l := by
  simp [totalInvestedOf]

theorem totalInvestedOf_nonneg (l : List KOLShare) (h : ∀ s ∈ l, 0 ≤ s.totalInvested) :
    0 ≤ totalInvestedOf l := by
  apply List.sum_nonneg
  intro x hx
  obtain ⟨s, hs, rfl⟩ := List.mem_map.mp hx
  exact h s hs

theorem find?_append_left_none {p : KOLShare → Bool} (pre l : List KOLShare)
    (hpre : ∀ s ∈ pre, ¬ p s) : (pre ++ l).find? p = l.find? p := by
  induction pre with
  | nil => rfl
  | cons a t ih =>
    rw [List.cons_append, List.find?_cons_of_neg _ (hpre a (List.mem_cons_self a t))]
    exact ih (fun s hs => hpre s (List.mem_cons_of_mem a hs))

theorem find?_middle (pre post : List KOLShare) (x : KOLShare)
    (hpre : ∀ s ∈ pre, s.kolAddress ≠ x.kolAddress) :
    (pre ++ x :: post).find? (fun s => s.kolAddress == x.kolAddress) = some x := by
  rw [find?_append_left_none pre _ ?_]
  · exact List.find?_cons_of_pos _ (by simp)
  · intro s hs
    simp [hpre s hs]

theorem getElem_middle (pre post : List KOLShare) (x : KOLShare) :
    (pre ++ x :: post)[pre.length]? = some x := by
  rw [List.getElem?_append_right le_rfl]
  simp

theorem marketShare_mono {o t₁ t₂ : ℝ} (ho : 0 ≤ o) (h1 : 0 ≤ t₁) (h12 : t₁ ≤ t₂) :
    t₁ / max (t₁ + o) 1 ≤ t₂ / max (t₂ + o) 1 := by
  rcases le_total (t₁ + o) 1 with hA | hA <;> rcases le_total (t₂ + o) 1 with hB | hB
  · rw [max_eq_right hA, max_eq_right hB, div_one, div_one]
    exact h12
  · rw [max_eq_right hA, max_eq_left hB, div_one,
      le_div_iff (by linarith : (0 : ℝ) < t₂ + o)]
    nlinarith [mul_nonneg (sub_nonneg.mpr h12) (by linarith : (0 : ℝ) ≤ 1 - t₁),
      mul_nonneg h1 (by linarith : (0 : ℝ) ≤ 1 - t₁ - o)]
  · have h11 : t₁ + o = 1 := le_antisymm (by linarith) hA
    rw [max_eq_left hA, max_eq_right hB, h11, div_one, div_one]
    exact h12
  · rw [max_eq_left hA, max_eq_left hB,
      div_le_div_iff (by linarith : (0 : ℝ) < t₁ + o) (by linarith : (0 : ℝ) < t₂ + o)]
    nlinarith [mul_nonneg ho (sub_nonneg.mpr h12)]

theorem sharePriceCore_zero (t T : ℝ) (b : Bool) (ht : 0 ≤ t) :
    sharePriceCore t T 0 b =
      roundTo4 (min 0.95 (max 0.05 (0.50 + (t / max T 1 * 2) ^ (1.5 : ℝ)))) := by
  simp only [sharePriceCore, zero_mul, ite_self, add_zero]
  rw [max_eq_right ht]

theorem clamped_curve_mono {s₁ s₂ : ℝ} (h0 : 0 ≤ s₁) (h : s₁ ≤ s₂) :
    roundTo4 (min 0.95 (max 0.05 (0.50 + (s₁ * 2) ^ (1.5 : ℝ)))) ≤
    roundTo4 (min 0.95 (max 0.05 (0.50 + (s₂ * 2) ^ (1.5 : ℝ)))) := by
  have hr : (s₁ * 2) ^ (1.5 : ℝ) ≤ (s₂ * 2) ^ (1.5 : ℝ) :=
    Real.rpow_le_rpow (by linarith) (by linarith) (by norm_num)
  exact roundTo4_mono (min_le_min le_rfl (max_le_max le_rfl (by linarith)))

theorem sum_map_mul_left (l : List KOLShare) (f : KOLShare → ℝ) (a : ℝ) :
    a * (l.map f).sum = (l.map (fun x => a * f x)).sum := by
  induction l with
  | nil => simp
  | cons x t ih => simp only [List.map_cons, List.sum_cons, mul_add, ih]

theorem exp_ratio_term_le {t₁ t₂ r v : ℝ} (h1 : 0 ≤ t₁) (h12 : t₁ ≤ t₂) (hr : 0 ≤ r)
    (hv : 0 ≤ v) (hT₁ : 0 < t₁ + r) :
    Real.exp (t₁ / (t₁ + r) * 5) * Real.exp (v / (t₂ + r) * 5) ≤
    Real.exp (t₂ / (t₂ + r) * 5) * Real.exp (v / (t₁ + r) * 5) := by
  have hT₂ : 0 < t₂ + r := by linarith
  rw [← Real.exp_add, ← Real.exp_add]
  apply Real.exp_le_exp.mpr
  have base : t₁ * (t₂ + r) + v * (t₁ + r) ≤ t₂ * (t₁ + r) + v * (t₂ + r) := by
    nlinarith [mul_nonneg (add_nonneg hr hv) (sub_nonneg.mpr h12)]
  have heq₁ : t₁ / (t₁ + r) * 5 + v / (t₂ + r) * 5 =
      5 * (t₁ * (t₂ + r) + v * (t₁ + r)) / ((t₁ + r) * (t₂ + r)) := by
    field_simp
    ring
  have heq₂ : t₂ / (t₂ + r) * 5 + v / (t₁ + r) * 5 =
      5 * (t₂ * (t₁ + r) + v * (t₂ + r)) / ((t₁ + r) * (t₂ + r)) := by
    field_simp
    ring
  rw [heq₁, heq₂, div_le_div_iff_of_pos_right (mul_pos hT₁ hT₂)]
  linarith

theorem softmax_target_mono (rest : List KOLShare) (t₁ t₂ : ℝ)
    (hrest : ∀ s ∈ rest, 0 ≤ s.totalInvested) (h1 : 0 ≤ t₁) (h12 : t₁ ≤ t₂)
    (hT₁pos : 0 < t₁ + totalInvestedOf rest) :
    Real.exp (t₁ / (t₁ + totalInvestedOf rest) * 5) /
      (Real.exp (t₁ / (t₁ + totalInvestedOf rest) * 5) +
        (rest.map (fun s2 =>
          Real.exp (s2.totalInvested / (t₁ + totalInvestedOf rest) * 5))).sum) ≤
    Real.exp (t₂ / (t₂ + totalInvestedOf rest) * 5) /
      (Real.exp (t₂ / (t₂ + totalInvestedOf rest) * 5) +
        (rest.map (fun s2 =>
          Real.exp (s2.totalInvested / (t₂ + totalInvestedOf rest) * 5))).sum) := by
  have hr0 : 0 ≤ totalInvestedOf rest := totalInvestedOf_nonneg rest hrest
  have hT₂pos : 0 < t₂ + totalInvestedOf rest := by linarith
  have hA₁ : 0 < Real.exp (t₁ / (t₁ + totalInvestedOf rest) * 5) := Real.exp_pos _
  have hA₂ : 0 < Real.exp (t₂ / (t₂ + totalInvestedOf rest) * 5) := Real.exp_pos _
  have hR₁ : 0 ≤ (rest.map (fun s2 =>
      Real.exp (s2.totalInvested / (t₁ + totalInvestedOf rest) * 5))).sum := by
    apply List.sum_nonneg
    intro x hx
    obtain ⟨s, _, rfl⟩ := List.mem_map.mp hx
    exact (Real.exp_pos _).le
  have hR₂ : 0 ≤ (rest.map (fun s2 =>
      Real.exp (s2.totalInvested / (t₂ + totalInvestedOf rest) * 5))).sum := by
    apply List.sum_nonneg
    intro x hx
    obtain ⟨s, _, rfl⟩ := List.mem_map.mp hx
    exact (Real.exp_pos _).le
  have hcross : Real.exp (t₁ / (t₁ + totalInvestedOf rest) * 5) *
      (rest.map (fun s2 =>
        Real.exp (s2.totalInvested / (t₂ + totalInvestedOf rest) * 5))).sum ≤
      Real.exp (t₂ / (t₂ + totalInvestedOf rest) * 5) *
      (rest.map (fun s2 =>
        Real.exp (s2.totalInvested / (t₁ + totalInvestedOf rest) * 5))).sum := by
    rw [sum_map_mul_left, sum_map_mul_left]
    apply List.sum_le_sum
    intro s hs
    exact exp_ratio_term_le h1 h12 hr0 (hrest s hs) hT₁pos
  rw [div_le_div_iff (by linarith) (by linarith)]
  nlinarith [hcross]

theorem probs_getElem (l : List KOLShare) (hT : totalInvestedOf l ≠ 0) (i : ℕ)
    (s : KOLShare) (hi : l[i]? = some s) :
    (calculateProbabilities l)[i]? = some (s.kolAddress,
      roundTo4 (Real.exp (s.totalInvested / totalInvestedOf l * 5) /
        (l.map (fun s2 => Real.exp (s2.totalInvested / totalInvestedOf l * 5))).sum)) := by
  simp only [calculateProbabilities]
  rw [if_neg hT, List.getElem?_map, hi]
  rfl

theorem probs_getElem_uniform (l : List KOLShare) (hT : totalInvestedOf l = 0) (i : ℕ)
    (s : KOLShare) (hi : l[i]? = some s) :
    (calculateProbabilities l)[i]? = some (s.kolAddress, 1 / (l.length : ℝ)) := by
  simp only [calculateProbabilities]
  rw [if_pos hT, List.getElem?_map, hi]
  rfl

/-- C6 (amended): holding all other candidates fixed (nonnegative
investments), raising the target candidate's `totalInvested` from `t₁` to
`t₂ ≥ t₁ ≥ 0` never decreases its zero-delta `calculateSharePrice`; and
provided the market's total investment is nonzero already at `t₁` (so both
states use the softmax branch), it never decreases the candidate's
`calculateProbabilities` entry either.  (Starting from an all-zero market
the probability can drop, see the counterexample.) -/
theorem price_probability_monotone
    (pre post : List KOLShare) (tgt : KOLShare) (t₁ t₂ : ℝ) (b₁ b₂ : Bool)
    (h1 : 0 ≤ t₁) (h12 : t₁ ≤ t₂)
    (hnn : ∀ s ∈ pre ++ post, 0 ≤ s.totalInvested)
    (haddr : ∀ s ∈ pre, s.kolAddress ≠ tgt.kolAddress) :
    (∀ p₁ p₂ : ℝ,
      calculateSharePrice (pre ++ setInvested tgt t₁ :: post) tgt.kolAddress 0 b₁ = .ok p₁ →
      calculateSharePrice (pre ++ setInvested tgt t₂ :: post) tgt.kolAddress 0 b₂ = .ok p₂ →
      p₁ ≤ p₂) ∧
    (totalInvestedOf (pre ++ setInvested tgt t₁ :: post) ≠ 0 →
      ∀ q₁ q₂ : ℝ,
      (calculateProbabilities (pre ++ setInvested tgt t₁ :: post))[pre.length]? =
        some (tgt.kolAddress, q₁) →
      (calculateProbabilities (pre ++ setInvested tgt t₂ :: post))[pre.length]? =
        some (tgt.kolAddress, q₂) →
      q₁ ≤ q₂) := by
  have h2 : 0 ≤ t₂ := le_trans h1 h12
  have e₁ : (setInvested tgt t₁).totalInvested = t₁ := rfl
  have e₂ : (setInvested tgt t₂).totalInvested = t₂ := rfl
  have ho : 0 ≤ totalInvestedOf (pre ++ post) := totalInvestedOf_nonneg _ hnn
  have hfind₁ : (pre ++ setInvested tgt t₁ :: post).find?
      (fun s => s.kolAddress == tgt.kolAddress) = some (setInvested tgt t₁) :=
    find?_middle pre post (setInvested tgt t₁) haddr
  have hfind₂ : (pre ++ setInvested tgt t₂ :: post).find?
      (fun s => s.kolAddress == tgt.kolAddress) = some (setInvested tgt t₂) :=
    find?_middle pre post (setInvested tgt t₂) haddr
  have htot₁ : totalInvestedOf (pre ++ setInvested tgt t₁ :: post) =
      t₁ + totalInvestedOf (pre ++ post) := by
    rw [totalInvestedOf_append, totalInvestedOf_cons, totalInvestedOf_append, e₁]
    ring
  have htot₂ : totalInvestedOf (pre ++ setInvested tgt t₂ :: post) =
      t₂ + totalInvestedOf (pre ++ post) := by
    rw [totalInvestedOf_append, totalInvestedOf_cons, totalInvestedOf_append, e₂]
    ring
  constructor
  · intro p₁ p₂ hp₁ hp₂
    by_cases hT₁ : totalInvestedOf (pre ++ setInvested tgt t₁ :: post) = 0
    · rw [calculateSharePrice_eq_base _ _ _ _ _ hfind₁ hT₁] at hp₁
      cases hp₁
      by_cases hT₂ : totalInvestedOf (pre ++ setInvested tgt t₂ :: post) = 0
      · rw [calculateSharePrice_eq_base _ _ _ _ _ hfind₂ hT₂] at hp₂
        cases hp₂
        exact le_rfl
      · rw [calculateSharePrice_eq_core _ _ _ _ _ hfind₂ hT₂] at hp₂
        cases hp₂
        exact (sharePriceCore_bounds _ _ _ _).1
    · have hT₁pos : 0 < totalInvestedOf (pre ++ setInvested tgt t₁ :: post) :=
        lt_of_le_of_ne (by rw [htot₁]; linarith) (Ne.symm hT₁)
      have hT₂pos : 0 < totalInvestedOf (pre ++ setInvested tgt t₂ :: post) := by
        rw [htot₂]
        rw [htot₁] at hT₁pos
        linarith
      rw [calculateSharePrice_eq_core _ _ _ _ _ hfind₁ hT₁] at hp₁
      rw [calculateSharePrice_eq_core _ _ _ _ _ hfind₂ hT₂pos.ne'] at hp₂
      cases hp₁
      cases hp₂
      rw [e₁, e₂, sharePriceCore_zero _ _ _ h1, sharePriceCore_zero _ _ _ h2, htot₁, htot₂]
      exact clamped_curve_mono
        (div_nonneg h1 (le_trans zero_le_one (le_max_right _ _)))
        (marketShare_mono ho h1 h12)
  · intro hT₁ne q₁ q₂ hq₁ hq₂
    have hT₁pos : 0 < t₁ + totalInvestedOf (pre ++ post) := by
      refine lt_of_le_of_ne (by linarith) ?_
      rw [← htot₁]
      exact Ne.symm hT₁ne
    have hT₂ne : totalInvestedOf (pre ++ setInvested tgt t₂ :: post) ≠ 0 := by
      rw [htot₂]
      intro hc
      linarith [hT₁pos, h12]
    have hg₁ := probs_getElem _ hT₁ne pre.length (setInvested tgt t₁)
      (getElem_middle pre post _)
    have hg₂ := probs_getElem _ hT₂ne pre.length (setInvested tgt t₂)
      (getElem_middle pre post _)
    have h₁' := hg₁.symm.trans hq₁
    have h₂' := hg₂.symm.trans hq₂
    rw [Option.some.injEq, Prod.mk.injEq] at h₁' h₂'
    obtain ⟨-, hv₁⟩ := h₁'
    obtain ⟨-, hv₂⟩ := h₂'
    subst hv₁
    subst hv₂
    apply roundTo4_mono
    rw [e₁, e₂]
    have hD₁ : ((pre ++ setInvested tgt t₁ :: post).map (fun s2 =>
        Real.exp (s2.totalInvested /
          totalInvestedOf (pre ++ setInvested tgt t₁ :: post) * 5))).sum =
        Real.exp (t₁ / totalInvestedOf (pre ++ setInvested tgt t₁ :: post) * 5) +
        ((pre ++ post).map (fun s2 =>
          Real.exp (s2.totalInvested /
            totalInvestedOf (pre ++ setInvested tgt t₁ :: post) * 5))).sum := by
      rw [List.map_append, List.sum_append, List.map_cons, List.sum_cons, e₁,
        List.map_append, List.sum_append]
      ring
    have hD₂ : ((pre ++ setInvested tgt t₂ :: post).map (fun s2 =>
        Real.exp (s2.totalInvested /
          totalInvestedOf (pre ++ setInvested tgt t₂ :: post) * 5))).sum =
        Real.exp (t₂ / totalInvestedOf (pre ++ setInvested tgt t₂ :: post) * 5) +
        ((pre ++ post).map (fun s2 =>
          Real.exp (s2.totalInvested /
            totalInvestedOf (pre ++ setInvested tgt t₂ :: post) * 5))).sum := by
      rw [List.map_append, List.sum_append, List.map_cons, List.sum_cons, e₂,
        List.map_append, List.sum_append]
      ring
    rw [hD₁, hD₂]
    simp only [htot₁, htot₂]
    exact softmax_target_mono (pre ++ post) t₁ t₂ hnn h1 h12 hT₁pos

/-- Candidate `n + 1` with zero investment (addresses distinct from `mkAddr 0`). -/
def zeroShare (n : ℕ) : KOLShare :=
  { periodId := "p", kolAddress := mkAddr (n + 1), pricePerShare := 0.50, totalShares := 0,
    totalInvested := 0, probability := 0, lastUpdated := 0 }

/-- 2999999 zero-investment candidates. -/
def bigRest : List KOLShare := (List.range 2999999).map zeroShare

/-- The target candidate, with zero investment and address `mkAddr 0`. -/
def tgtA : KOLShare :=
  { periodId := "p", kolAddress := mkAddr 0, pricePerShare := 0.50, totalShares := 0,
    totalInvested := 0, probability := 0, lastUpdated := 0 }

theorem bigRest_facts : ∀ s ∈ bigRest, s.totalInvested = 0 ∧ s.kolAddress ≠ tgtA.kolAddress := by
  intro s hs
  simp only [bigRest] at hs
  obtain ⟨i, -, rfl⟩ := List.mem_map.mp hs
  refine ⟨rfl, ?_⟩
  show mkAddr (i + 1) ≠ mkAddr 0
  intro h
  exact Nat.succ_ne_zero i (mkAddr_inj h)

theorem totalInvestedOf_bigRest : totalInvestedOf bigRest = 0 := by
  apply List.sum_eq_zero
  intro x hx
  obtain ⟨s, hs, rfl⟩ := List.mem_map.mp hx
  exact (bigRest_facts s hs).1

theorem bigRest_length : bigRest.length = 2999999 := by simp [bigRest]

theorem exp_five_lt : Real.exp 5 < 148.42 := by
  have h1 : Real.exp 1 < 2.7182818286 := Real.exp_one_lt_d9
  have h5 : ((5 : ℕ) : ℝ) = 5 := by norm_num
  rw [← h5, ← Real.exp_one_pow]
  calc Real.exp 1 ^ 5 < 2.7182818286 ^ 5 :=
    pow_lt_pow_left₀ h1 (Real.exp_pos 1).le (by norm_num)
  _ < 148.42 := by norm_num

theorem probs_uniform_entry :
    (calculateProbabilities (setInvested tgtA 0 :: bigRest))[0]? =
      some (tgtA.kolAddress, 1 / 3000000) := by
  have h0 : totalInvestedOf (setInvested tgtA 0 :: bigRest) = 0 := by
    rw [totalInvestedOf_cons, totalInvestedOf_bigRest,
      show (setInvested tgtA 0).totalInvested = 0 from rfl]
    norm_num
  rw [probs_getElem_uniform _ h0 0 (setInvested tgtA 0) List.getElem?_cons_zero]
  rw [show (setInvested tgtA 0 :: bigRest).length = 3000000 from by
    rw [List.length_cons, bigRest_length]]
  norm_num
  rfl

theorem probs_softmax_entry :
    (calculateProbabilities (setInvested tgtA 1 :: bigRest))[0]? =
      some (tgtA.kolAddress, 0) := by
  have h1tot : totalInvestedOf (setInvested tgtA 1 :: bigRest) = 1 := by
    rw [totalInvestedOf_cons, totalInvestedOf_bigRest,
      show (setInvested tgtA 1).totalInvested = 1 from rfl]
    norm_num
  rw [probs_getElem _ (by rw [h1tot]; norm_num) 0 (setInvested tgtA 1)
    List.getElem?_cons_zero]
  simp only [h1tot]
  rw [List.map_cons, List.sum_cons]
  simp only [show (setInvested tgtA 1).totalInvested = (1 : ℝ) from rfl]
  have hrest : (bigRest.map (fun s2 => Real.exp (s2.totalInvested / 1 * 5))).sum =
      2999999 := by
    rw [List.sum_eq_card_nsmul _ (1 : ℝ) ?_]
    · rw [List.length_map, bigRest_length]
      norm_num
    · intro x hx
      obtain ⟨s, hs, rfl⟩ := List.mem_map.mp hx
      rw [(bigRest_facts s hs).1]
      norm_num
  rw [hrest]
  rw [show (1 : ℝ) / 1 * 5 = 5 by norm_num]
  have hd : (0 : ℝ) < Real.exp 5 + 2999999 := by positivity
  have hval : roundTo4 (Real.exp 5 / (Real.exp 5 + 2999999)) = 0 := by
    have hxpos : (0 : ℝ) < Real.exp 5 / (Real.exp 5 + 2999999) := by positivity
    have hxsmall : Real.exp 5 / (Real.exp 5 + 2999999) * 10000 < 1 / 2 := by
      rw [div_mul_eq_mul_div, div_lt_iff hd]
      linarith [exp_five_lt, (Real.exp_pos 5).le]
    rw [roundTo4_eq_of (Real.exp 5 / (Real.exp 5 + 2999999)) 0 ?_ ?_]
    · norm_num
    · push_cast
      nlinarith [hxpos]
    · push_cast
      linarith
  rw [hval]
  rfl

/-- C6 counterexample: with 3000000 candidates all at zero investment,
raising the target's investment from 0 to 1 (others fixed, all data-model
invariants satisfied) moves its `calculateProbabilities` entry from the
unrounded uniform `1/3000000` down to `0`: the softmax value
`exp 5 / (exp 5 + 2999999)` is below half of 1/10000 and rounds to zero, so
the probability strictly decreases. -/
theorem probability_decrease_on_first_investment :
    (∀ s ∈ bigRest, 0 ≤ s.totalInvested ∧ s.kolAddress ≠ tgtA.kolAddress) ∧
    (0 : ℝ) ≤ 0 ∧ (0 : ℝ) ≤ 1 ∧
    (calculateProbabilities (setInvested tgtA 0 :: bigRest))[0]? =
      some (tgtA.kolAddress, 1 / 3000000) ∧
    (calculateProbabilities (setInvested tgtA 1 :: bigRest))[0]? =
      some (tgtA.kolAddress, 0) ∧
    ¬((1 : ℝ) / 3000000 ≤ 0) := by
  refine ⟨?_, le_rfl, by norm_num, probs_uniform_entry, probs_softmax_entry, by norm_num⟩
  intro s hs
  exact ⟨le_of_eq (bigRest_facts s hs).1.symm, (bigRest_facts s hs).2⟩

/-- Concrete two-candidate market for the C6 witness: the other candidate
(`mkAddr 1`) and the target (`mkAddr 0`), each with 1 invested. -/
def wMarket : List KOLShare := [uShare 1] ++ setInvested (uShare 0) 1 :: []

theorem wMarket_total : totalInvestedOf wMarket = 2 := by
  rw [show wMarket = uShare 1 :: setInvested (uShare 0) 1 :: [] from rfl,
    totalInvestedOf_cons, totalInvestedOf_cons,
    show (uShare 1).totalInvested = 1 from rfl,
    show (setInvested (uShare 0) 1).totalInvested = 1 from rfl]
  simp [totalInvestedOf]
  norm_num

theorem wfind : wMarket.find? (fun s => s.kolAddress == (uShare 0).kolAddress) =
    some (setInvested (uShare 0) 1) := by
  have hpre : ∀ s ∈ [uShare 1], s.kolAddress ≠ (setInvested (uShare 0) 1).kolAddress := by
    intro s hs
    simp only [List.mem_singleton] at hs
    subst hs
    show mkAddr 1 ≠ mkAddr 0
    intro h
    exact Nat.succ_ne_zero 0 (mkAddr_inj h)
  exact find?_middle [uShare 1] [] (setInvested (uShare 0) 1) hpre

theorem wprice : calculateSharePrice wMarket (uShare 0).kolAddress 0 true = .ok 0.95 := by
  rw [calculateSharePrice_eq_core wMarket ((uShare 0).kolAddress) 0 true
    (setInvested (uShare 0) 1) wfind (by rw [wMarket_total]; norm_num)]
  congr 1
  rw [show (setInvested (uShare 0) 1).totalInvested = 1 from rfl, wMarket_total]
  rw [sharePriceCore_zero 1 2 true (by norm_num)]
  rw [show max (2 : ℝ) 1 = 2 from max_eq_left (by norm_num)]
  rw [show (1 : ℝ) / 2 * 2 = 1 by norm_num]
  rw [Real.one_rpow]
  exact roundTo4_clamp_cap (by norm_num)

theorem wprob :
    (calculateProbabilities wMarket)[1]? = some ((uShare 0).kolAddress, (0.5 : ℝ)) := by
  have hne : totalInvestedOf wMarket ≠ 0 := by
    rw [wMarket_total]
    norm_num
  have hget : wMarket[1]? = some (setInvested (uShare 0) 1) := rfl
  rw [probs_getElem wMarket hne 1 (setInvested (uShare 0) 1) hget]
  simp only [wMarket_total, show (setInvested (uShare 0) 1).totalInvested = (1 : ℝ) from rfl]
  have hsum : (wMarket.map (fun s2 => Real.exp (s2.totalInvested / 2 * 5))).sum =
      Real.exp (1 / 2 * 5) + (Real.exp (1 / 2 * 5) + 0) := rfl
  rw [hsum]
  rw [show Real.exp (1 / 2 * 5) / (Real.exp (1 / 2 * 5) + (Real.exp (1 / 2 * 5) + 0)) =
      1 / 2 by
    rw [add_zero, show Real.exp (1 / 2 * 5) + Real.exp (1 / 2 * 5) =
      2 * Real.exp (1 / 2 * 5) by ring]
    rw [div_mul_eq_div_div, div_right_comm, div_self (Real.exp_ne_zero _)]]
  rw [show roundTo4 (1 / 2) = 0.5 from by
    rw [roundTo4_eq_of (1 / 2) 5000 (by norm_num) (by norm_num)]
    norm_num]
  rfl

/-- C6 witness: both conjuncts of the amended monotonicity theorem applied to
the concrete two-candidate market `wMarket` (target and other at 1 each). -/
theorem price_probability_monotone_witness :
    (0 : ℝ) ≤ 1 ∧ (1 : ℝ) ≤ 1 ∧ (0.95 : ℝ) ≤ 0.95 ∧ (0.5 : ℝ) ≤ 0.5 := by
  obtain ⟨hp, hq⟩ := price_probability_monotone [uShare 1] [] (uShare 0) 1 1 true true
    (by norm_num) le_rfl
    (by intro s hs
        simp only [List.append_nil, List.mem_singleton] at hs
        subst hs
        norm_num [uShare])
    (by intro s hs
        simp only [List.mem_singleton] at hs
        subst hs
        show mkAddr 1 ≠ mkAddr 0
        intro h
        exact Nat.succ_ne_zero 0 (mkAddr_inj h))
  refine ⟨by norm_num, le_rfl, ?_, ?_⟩
  · exact hp 0.95 0.95 wprice wprice
  · exact hq (by rw [show totalInvestedOf ([uShare 1] ++ setInvested (uShare 0) 1 :: []) = 2
        from wMarket_total]; norm_num) 0.5 0.5 wprob wprob

end Pillymarket
